import Mathlib

/-!
Shallow embedding of the storage aggregation engine of `mac_system_scanner`
(`storage_utils.py`, `mac_system_scanner.py`, `gui_mac_system_scanner.py`).

Modelling conventions:
* A Python `str` is modelled as `List Char` (a Python string is a sequence of
  code points).
* A Python `int` is modelled as `Int` (arbitrary precision on both sides).
* Python's stable `sorted(xs, key=k, reverse=True)` is modelled as
  `List.insertionSort (fun a b => k b ≤ k a)`: Mathlib's insertion sort is
  stable, and for this relation it produces descending `k` with ties kept in
  original order, exactly CPython's documented behaviour for `reverse=True`.
* `human_gb` divides by `2 ^ 30` in `ℚ`; CPython computes `bytes / (1024 ** 3)`
  in binary64, which is exact for `|bytes| < 2 ^ 53` (division by a power of
  two only shifts the exponent), so over the range attainable by real scans
  the rational model agrees with the float code.
* The stdout text of the external `du` subprocess is passed to `du_list` as an
  explicit argument; all functions are pure, as are the Python originals
  (they build fresh lists and never mutate their input).
-/

namespace MacScanner

open scoped List

/-- One `(size_bytes, path)` row, the `SizeEntry` of the spec. -/
abbrev Entry := Int × List Char

/-- View a Lean string literal as the list of its characters. -/
def pstr (s : String) : List Char := s.data

/-- Boolean prefix test, Python `str.startswith`. -/
def isPref : List Char → List Char → Bool
  | [], _ => true
  | _ :: _, [] => false
  | a :: as, b :: bs => a == b && isPref as bs

/-- Python `path.rstrip("/")`: drop trailing slashes. -/
def rstripSlash (p : List Char) : List Char :=
  (p.reverse.dropWhile (fun c => c == '/')).reverse

/-- The test `kp.startswith(path.rstrip("/") + "/")` from `leaf_only`:
the kept path `kp` lies strictly below the candidate `path`. -/
def keptBelow (path kp : List Char) : Bool :=
  isPref (rstripSlash path ++ ['/']) kp

/-- `any(kp.startswith(path.rstrip("/") + "/") for _, kp in keep)`. -/
def anyKeptBelow (keep : List Entry) (path : List Char) : Bool :=
  keep.any (fun k => keptBelow path k.2)

/-- The accumulation loop of `leaf_only`: scan the candidates in order,
appending a candidate to `keep` unless some already kept path lies strictly
below it. -/
def keepFold : List Entry → List Entry → List Entry
  | acc, [] => acc
  | acc, e :: rest =>
    if anyKeptBelow acc e.2 then keepFold acc rest
    else keepFold (acc ++ [e]) rest

/-- Relation for `sorted(entries, key=lambda x: len(x[1]), reverse=True)`:
descending path length. -/
def lenGe (a b : Entry) : Prop := b.2.length ≤ a.2.length

/-- Relation for `sorted(keep, key=lambda x: x[0], reverse=True)`:
descending size. -/
def sizeGe (a b : Entry) : Prop := b.1 ≤ a.1

instance : DecidableRel lenGe := fun a b => Nat.decLe b.2.length a.2.length

instance : DecidableRel sizeGe := fun a b => Int.decLe b.1 a.1

instance : IsTrans Entry lenGe := ⟨fun _ _ _ h1 h2 => Nat.le_trans h2 h1⟩

instance : IsTotal Entry lenGe := ⟨fun a b => Nat.le_total b.2.length a.2.length⟩

instance : IsTrans Entry sizeGe := ⟨fun _ _ _ h1 h2 => le_trans h2 h1⟩

instance : IsTotal Entry sizeGe := ⟨fun a b => le_total b.1 a.1⟩

/-- Stable descending sort by path length. -/
def sortLen (l : List Entry) : List Entry := l.insertionSort lenGe

/-- Stable descending sort by size. -/
def sortSize (l : List Entry) : List Entry := l.insertionSort sizeGe

/-- `storage_utils.leaf_only`: keep only leaf paths, processing deepest
(longest) paths first, then present the kept rows by descending size. -/
def leaf_only (entries : List Entry) : List Entry :=
  sortSize (keepFold [] (sortLen entries))

/-- Ancestor relation of the claims: `p` is a proper prefix of `q` ending
exactly at a path-separator boundary (either `p` itself ends in a slash, or
the next character of `q` after `p` is a slash). -/
def isAncestor (p q : List Char) : Bool :=
  isPref p q && decide (p.length < q.length) &&
    (p.getLast? == some '/' || q.getD p.length ' ' == '/')

/-- `storage_utils.human_gb`: bytes to GiB, `bytes_val / (1024 ** 3)`. Stated
with `mkRat` (the rational `n / 1024 ^ 3`, see `human_gb_eq_div`) so that the
kernel can evaluate it on concrete inputs. -/
def human_gb (n : Int) : ℚ := mkRat n (1024 ^ 3)

/-- The threshold test `human_gb(p[0]) >= args.min_gb` of the scan loop. -/
def meetsMin (minGb : ℚ) (e : Entry) : Bool := decide (minGb ≤ human_gb e.1)

/-- The RankFilter stage (spec §4.4, and lines 88 and 91 of
`mac_system_scanner.main`): drop entries below the minimum size, sort the
rest by descending size, truncate to the first `topN`. -/
def rank_filter (entries : List Entry) (minGb : ℚ) (topN : Nat) : List Entry :=
  (sortSize (entries.filter (meetsMin minGb))).take topN

/-- The top-folders pipeline of `mac_system_scanner.main` (lines 88 to 91) and
`ScannerGUI._run_scan` (lines 334 to 337): threshold the raw entries, apply
`leaf_only` when the toggle is on, then sort descending and truncate. -/
def top_folders (pairs : List Entry) (minGb : ℚ) (top : Nat) (leaf : Bool) :
    List Entry :=
  let p1 := pairs.filter (meetsMin minGb)
  let p2 := if leaf then leaf_only p1 else p1
  (sortSize p2).take top

/-- Python `str.splitlines`, accumulator form: split on the line boundaries
recognised by CPython, treating `\r\n` as a single boundary, with no empty
trailing line. -/
def splitlinesAux : List Char → List Char → List (List Char)
  | [], acc => if acc.isEmpty then [] else [acc.reverse]
  | '\r' :: '\n' :: rest, acc => acc.reverse :: splitlinesAux rest []
  | c :: rest, acc =>
    if c == '\n' || c == '\r' || c == '\x0b' || c == '\x0c' ||
        c == '\x1c' || c == '\x1d' || c == '\x1e' || c == '\x85' ||
        c == '\u2028' || c == '\u2029' then
      acc.reverse :: splitlinesAux rest []
    else
      splitlinesAux rest (c :: acc)

/-- Python `out.splitlines()`. -/
def splitlines (out : List Char) : List (List Char) := splitlinesAux out []

/-- Python `line.split("\t", 1)`: `none` when the line has no tab (so the
resulting list has length 1), otherwise the parts before and after the first
tab. -/
def splitTab1 : List Char → Option (List Char × List Char)
  | [] => none
  | c :: r =>
    if c == '\t' then some ([], r)
    else (splitTab1 r).map (fun ab => (c :: ab.1, ab.2))

/-- The whitespace stripped by Python `int(str)` (ASCII part). -/
def isPySpace (c : Char) : Bool :=
  c == ' ' || c == '\t' || c == '\n' || c == '\r' || c == '\x0b' || c == '\x0c'

/-- Strip leading and trailing whitespace. -/
def pyStrip (s : List Char) : List Char :=
  ((s.dropWhile isPySpace).reverse.dropWhile isPySpace).reverse

/-- Numeric value of a decimal digit character. -/
def digitVal (c : Char) : Nat := c.toNat - '0'.toNat

/-- Continue parsing decimal digits after the first one, allowing a single
underscore between digits as Python `int` does. -/
def digitsRest : Nat → List Char → Option Nat
  | acc, [] => some acc
  | acc, '_' :: c :: r =>
    if c.isDigit then digitsRest (10 * acc + digitVal c) r else none
  | acc, c :: r =>
    if c.isDigit then digitsRest (10 * acc + digitVal c) r else none

/-- Parse a nonempty digit group (underscores allowed between digits). -/
def digitsU : List Char → Option Nat
  | [] => none
  | c :: r => if c.isDigit then digitsRest (digitVal c) r else none

/-- Python `int(s)` after stripping: an optional sign followed by a digit
group. Only ASCII decimal digits are modelled; CPython additionally accepts
other Unicode decimal digits, which all denote nonnegative digit values, so
the restriction does not affect the sign of any parsed value. -/
def pyIntCore : List Char → Option Int
  | '+' :: r => (digitsU r).map (fun n : Nat => (n : Int))
  | '-' :: r => (digitsU r).map (fun n : Nat => -(n : Int))
  | r => (digitsU r).map (fun n : Nat => (n : Int))

/-- Python `int(s)`, returning `none` where CPython raises `ValueError`. -/
def pyInt (s : List Char) : Option Int := pyIntCore (pyStrip s)

/-- One iteration of the parsing loop of `storage_utils.du_list`: skip the
line unless it splits in two at a tab and its first field parses as an
integer; otherwise emit `(kib * 1024, path)`. -/
def parseDuLine (line : List Char) : Option Entry :=
  match splitTab1 line with
  | none => none
  | some (a, b) =>
    match pyInt a with
    | none => none
    | some k => some (k * 1024, b)

/-- `storage_utils.du_list`, with the stdout text of the `du` subprocess
passed in as `out`. -/
def du_list (out : List Char) : List Entry :=
  (splitlines out).filterMap parseDuLine

/-- Python dict assignment `d[k] = v` on an association list: update the
existing key in place, or append a fresh key at the end. -/
def dset (d : List (List Char × Int)) (k : List Char) (v : Int) :
    List (List Char × Int) :=
  match d with
  | [] => [(k, v)]
  | kv :: t => if kv.1 = k then (k, v) :: t else kv :: dset t k v

/-- Python dict lookup on an association list. -/
def dget (d : List (List Char × Int)) (k : List Char) : Option Int :=
  match d with
  | [] => none
  | kv :: t => if kv.1 = k then some kv.2 else dget t k

/-- `sum(size for size, _ in pairs)`. -/
def sumSizes (pairs : List Entry) : Int := (pairs.map Prod.fst).sum

/-- `storage_utils.accumulate_root_totals`: for each root of the mapping, in
iteration order, set its total to the plain sum of its pair sizes. -/
def accumulate_root_totals (m : List (List Char × List Entry)) :
    List (List Char × Int) :=
  m.foldl (fun d p => dset d p.1 (sumSizes p.2)) []

/-- Index of the last dot of a name, Python `name.rfind(".")` restricted to
the found case. -/
def lastDotIdx : List Char → Option Nat
  | [] => none
  | c :: r =>
    match lastDotIdx r with
    | some i => some (i + 1)
    | none => if c == '.' then some 0 else none

/-- The final path component as computed by `pathlib.PurePath.name`: split on
slashes, discard empty and single-dot components, take the last one. -/
def pathName (p : List Char) : List Char :=
  (((List.splitOn '/' p).filter
    (fun c => decide (c ≠ [] ∧ c ≠ ['.']))).getLast?).getD []

/-- `pathlib.PurePath.suffix` on a name: the tail from the last dot, provided
that dot is neither the first nor the last character of the name. -/
def suffixOfName (n : List Char) : List Char :=
  match lastDotIdx n with
  | none => []
  | some i => if 0 < i ∧ i + 1 < n.length then n.drop i else []

/-- `pathlib.PurePath(p).suffix`. -/
def pathSuffix (p : List Char) : List Char := suffixOfName (pathName p)

/-- Python `str.lower` (ASCII part; the dots and ASCII letters of extension
tokens are all this program compares). -/
def lowerChars (s : List Char) : List Char := s.map Char.toLower

/-- The bucket chosen by `storage_utils.filetype_totals` for one path:
`Path(p).suffix.lower()`, or the sentinel `"(no-ext)"` when that is empty. -/
def extBucket (p : List Char) : List Char :=
  let e := lowerChars (pathSuffix p)
  if e = [] then pstr "(no-ext)" else e

/-- `collections.Counter` update `c[k] += v`: add to the existing key or
append a fresh key (with implicit zero) at the end. -/
def bump (h : List (List Char × Int)) (k : List Char) (v : Int) :
    List (List Char × Int) :=
  match h with
  | [] => [(k, v)]
  | kv :: t => if kv.1 = k then (kv.1, kv.2 + v) :: t else kv :: bump t k v

/-- `storage_utils.filetype_totals`: aggregate sampled files into a
size-by-extension histogram. -/
def filetype_totals (sampled : List Entry) : List (List Char × Int) :=
  sampled.foldl (fun h e => bump h (extBucket e.2) e.1) []

/-- Relation holding between a kept entry `a` and any entry `b` accepted
after it: when `b` was examined, `a` was already in `keep` and the
`startswith` test against it failed. -/
def KeptR (a b : Entry) : Prop := keptBelow b.2 a.2 = false

/-- Value of a key of an association list, zero when absent. -/
def dgetD (d : List (List Char × Int)) (k : List Char) : Int := (dget d k).getD 0

/-! ## General lemmas about the embedded operations -/

theorem human_gb_eq_div (n : Int) : human_gb n = (n : ℚ) / (1024 ^ 3) := by
  rw [human_gb, Rat.mkRat_eq_div]; norm_num

theorem isPref_iff {p q : List Char} : isPref p q = true ↔ ∃ t, q = p ++ t := by
  induction p generalizing q with
  | nil => simp [isPref]
  | cons a as ih =>
    cases q with
    | nil => simp [isPref]
    | cons b bs =>
      rw [isPref]
      simp only [Bool.and_eq_true, beq_iff_eq, ih, List.cons_append,
        List.cons.injEq]
      constructor
      · rintro ⟨rfl, t, rfl⟩
        exact ⟨t, rfl, rfl⟩
      · rintro ⟨t, rfl, rfl⟩
        exact ⟨rfl, t, rfl⟩

theorem isPref_trans {p q r : List Char} (h1 : isPref p q = true)
    (h2 : isPref q r = true) : isPref p r = true := by
  obtain ⟨t1, rfl⟩ := isPref_iff.mp h1
  obtain ⟨t2, rfl⟩ := isPref_iff.mp h2
  exact isPref_iff.mpr ⟨t1 ++ t2, by simp⟩

theorem head?_dropWhile_false {p : Char → Bool} :
    ∀ {l : List Char} {c : Char}, (l.dropWhile p).head? = some c → p c = false
  | [], c => by simp [List.dropWhile]
  | a :: l, c => by
    rw [List.dropWhile_cons]
    split
    · exact head?_dropWhile_false
    · rename_i h
      intro hc
      simp only [List.head?_cons, Option.some.injEq] at hc
      subst hc
      simpa using h

theorem takeWhile_slash_replicate (l : List Char) :
    ∃ k, l.takeWhile (fun c => c == '/') = List.replicate k '/' := by
  refine ⟨(l.takeWhile (fun c => c == '/')).length,
    List.eq_replicate_length.mpr ?_⟩
  intro b hb
  simpa using List.mem_takeWhile_imp hb

theorem rstripSlash_spec (p : List Char) :
    ∃ k, p = rstripSlash p ++ List.replicate k '/' := by
  obtain ⟨k, hk⟩ := takeWhile_slash_replicate p.reverse
  refine ⟨k, ?_⟩
  conv_lhs => rw [← List.reverse_reverse p,
    ← List.takeWhile_append_dropWhile (p := fun c => c == '/') (l := p.reverse)]
  rw [List.reverse_append, rstripSlash, hk, List.reverse_replicate]

theorem getLast?_rstripSlash (p : List Char) :
    (rstripSlash p).getLast? ≠ some '/' := by
  intro h
  rw [rstripSlash, List.getLast?_eq_head?_reverse, List.reverse_reverse] at h
  have := head?_dropWhile_false h
  simp at this

theorem rstripSlash_eq_self {p : List Char} (h : p.getLast? ≠ some '/') :
    rstripSlash p = p := by
  obtain ⟨k, hk⟩ := rstripSlash_spec p
  cases k with
  | zero => simpa using hk.symm
  | succ m =>
    exfalso
    apply h
    rw [hk, List.getLast?_append]
    simp [List.getLast?_replicate]

theorem keptBelow_of_isAncestor {p q : List Char} (h : isAncestor p q = true) :
    keptBelow p q = true := by
  rw [isAncestor, Bool.and_eq_true, Bool.and_eq_true] at h
  obtain ⟨⟨hpq, hlen⟩, hbd⟩ := h
  rw [decide_eq_true_iff] at hlen
  rw [keptBelow]
  by_cases hs : p.getLast? = some '/'
  · obtain ⟨k, hk⟩ := rstripSlash_spec p
    have hk1 : 1 ≤ k := by
      rcases Nat.eq_zero_or_pos k with h0 | h1
      · exfalso
        apply getLast?_rstripSlash p
        rw [← hs]
        congr 1
        simpa [h0] using hk.symm
      · exact h1
    obtain ⟨m, rfl⟩ : ∃ m, k = m + 1 := ⟨k - 1, by omega⟩
    have hp : isPref (rstripSlash p ++ ['/']) p = true := by
      apply isPref_iff.mpr
      refine ⟨List.replicate m '/', ?_⟩
      conv_lhs => rw [hk]
      rw [List.append_assoc, List.replicate_succ]
      simp
    exact isPref_trans hp hpq
  · rw [rstripSlash_eq_self hs]
    obtain ⟨t, rfl⟩ := isPref_iff.mp hpq
    rw [Bool.or_eq_true] at hbd
    rcases hbd with hbd | hbd
    · exact absurd (by simpa using hbd) hs
    · cases t with
      | nil => simp at hlen
      | cons c t' =>
        have hc : c = '/' := by
          rw [List.getD_eq_getElem?_getD,
            List.getElem?_append_right (Nat.le_refl _)] at hbd
          simpa using hbd
        subst hc
        apply isPref_iff.mpr
        exact ⟨t', by simp⟩

theorem isAncestor_length_lt {p q : List Char} (h : isAncestor p q = true) :
    p.length < q.length := by
  rw [isAncestor, Bool.and_eq_true, Bool.and_eq_true] at h
  exact of_decide_eq_true h.1.2

theorem isAncestor_self (p : List Char) : isAncestor p p = false := by
  rw [isAncestor]
  simp

theorem keptBelow_length {p q : List Char} (h : keptBelow p q = true) :
    (rstripSlash p).length < q.length := by
  obtain ⟨t, rfl⟩ := isPref_iff.mp h
  simp

/-! ## The keep loop of leaf_only -/

theorem keepFold_sublist : ∀ (acc l : List Entry), keepFold acc l <+ acc ++ l
  | acc, [] => by simp [keepFold]
  | acc, e :: rest => by
    rw [keepFold]
    split
    · exact (keepFold_sublist acc rest).trans
        (List.append_sublist_append_left acc |>.mpr (List.sublist_cons_self e rest))
    · have := keepFold_sublist (acc ++ [e]) rest
      simpa using this

theorem keepFold_pairwise :
    ∀ {acc l : List Entry}, acc.Pairwise KeptR → (keepFold acc l).Pairwise KeptR
  | acc, [], h => by simpa [keepFold] using h
  | acc, e :: rest, h => by
    rw [keepFold]
    split
    · exact keepFold_pairwise h
    · rename_i hany
      apply keepFold_pairwise
      rw [List.pairwise_append]
      refine ⟨h, by simp, ?_⟩
      intro a ha b hb
      simp only [List.mem_singleton] at hb
      subst hb
      rw [KeptR]
      rw [anyKeptBelow] at hany
      have := List.any_eq_false.mp (Bool.not_eq_true _ ▸ hany) a ha
      simpa using this

theorem keepFold_nil_sublist (l : List Entry) : keepFold [] l <+ l := by
  simpa using keepFold_sublist [] l

/-! ## Sorting bridges -/

theorem sortSize_perm (l : List Entry) : sortSize l ~ l :=
  List.perm_insertionSort _ _

theorem sortLen_perm (l : List Entry) : sortLen l ~ l :=
  List.perm_insertionSort _ _

theorem sortSize_sorted (l : List Entry) : (sortSize l).Pairwise sizeGe :=
  List.sorted_insertionSort _ _

theorem sortLen_sorted (l : List Entry) : (sortLen l).Pairwise lenGe :=
  List.sorted_insertionSort _ _

/-- Stability of insertion sort, in filtering form: if the elements selected
by `p` are already mutually ordered by `r` in `M`, sorting by `r` does not
change their relative order, hence filtering commutes with sorting. -/
theorem filter_insertionSort_eq {α : Type} {r : α → α → Prop} [DecidableRel r]
    {M : List α} {p : α → Bool} (h : (M.filter p).Pairwise r) :
    (M.insertionSort r).filter p = M.filter p := by
  have hsub : M.filter p <+ M.insertionSort r :=
    List.sublist_insertionSort h (List.filter_sublist M)
  have h1 : (M.filter p).filter p = M.filter p := by
    simp [List.filter_filter]
  have h2 : M.filter p <+ (M.insertionSort r).filter p := h1 ▸ hsub.filter p
  have h3 : (M.insertionSort r).filter p ~ M.filter p :=
    (List.perm_insertionSort r M).filter p
  exact (h2.eq_of_length h3.length_eq.symm).symm

/-- The kept list of `leaf_only`, with its two invariants: it is ordered by
descending path length, and the accept-time check failed for every later
entry against every earlier one. -/
theorem keepFold_invariants (es : List Entry) :
    keepFold [] (sortLen es) <+ sortLen es ∧
      (keepFold [] (sortLen es)).Pairwise KeptR ∧
      (keepFold [] (sortLen es)).Pairwise lenGe :=
  ⟨keepFold_nil_sublist _, keepFold_pairwise List.Pairwise.nil,
    (sortLen_sorted es).sublist (keepFold_nil_sublist _)⟩

theorem leaf_only_perm_keepFold (es : List Entry) :
    leaf_only es ~ keepFold [] (sortLen es) :=
  sortSize_perm _

/-- Core of claim C1: any two entries of the output of `leaf_only` (equal or
not) are unrelated by `isAncestor`. -/
theorem leaf_only_no_ancestors_aux (es : List Entry) :
    ∀ a ∈ leaf_only es, ∀ b ∈ leaf_only es, isAncestor a.2 b.2 = false := by
  intro a ha b hb
  obtain ⟨-, hpairR, hpairLen⟩ := keepFold_invariants es
  have hK := leaf_only_perm_keepFold es
  have haK : a ∈ keepFold [] (sortLen es) := hK.mem_iff.mp ha
  have hbK : b ∈ keepFold [] (sortLen es) := hK.mem_iff.mp hb
  have hS : (keepFold [] (sortLen es)).Pairwise
      (fun x y => isAncestor x.2 y.2 = false ∧ isAncestor y.2 x.2 = false) := by
    refine (hpairR.and hpairLen).imp ?_
    rintro x y ⟨hR, hLen⟩
    constructor
    · by_contra hne
      have htrue : isAncestor x.2 y.2 = true := by simpa using hne
      have hlt := isAncestor_length_lt htrue
      rw [lenGe] at hLen
      omega
    · by_contra hne
      have htrue : isAncestor y.2 x.2 = true := by simpa using hne
      have hkb := keptBelow_of_isAncestor htrue
      rw [KeptR] at hR
      simp [hR] at hkb
  rcases eq_or_ne a b with rfl | hne
  · exact isAncestor_self a.2
  · exact (List.Pairwise.forall (fun x y h => ⟨h.2, h.1⟩) hS haK hbK hne).1

/-- Core of claim C10: the output of `leaf_only` is a sub-multiset of its
input. -/
theorem leaf_only_subperm_aux (es : List Entry) : leaf_only es <+~ es :=
  ((leaf_only_perm_keepFold es).subperm).trans
    (((keepFold_nil_sublist (sortLen es)).subperm).trans (sortLen_perm es).subperm)

theorem mem_of_mem_leaf_only {es : List Entry} {e : Entry}
    (h : e ∈ leaf_only es) : e ∈ es :=
  (leaf_only_subperm_aux es).subset h

theorem pairwise_sizeGe_filter_eq (M : List Entry) (v : Int) :
    (M.filter (fun e => decide (e.1 = v))).Pairwise sizeGe := by
  apply List.pairwise_of_forall_mem_list
  intro a ha b hb
  have ha' := (List.mem_filter.mp ha).2
  have hb' := (List.mem_filter.mp hb).2
  rw [decide_eq_true_iff] at ha' hb'
  show b.1 ≤ a.1
  omega

theorem sortSize_filter_sizeEq (M : List Entry) (v : Int) :
    (sortSize M).filter (fun e => decide (e.1 = v)) =
      M.filter (fun e => decide (e.1 = v)) := by
  unfold sortSize
  exact filter_insertionSort_eq (pairwise_sizeGe_filter_eq M v)

/-! ## Claim theorems -/

/-- Claim C1: for every input list, no entry in the output of `leaf_only` has
a path that is a filesystem ancestor (proper prefix ending at a separator
boundary) of any other output entry's path. Status: confirmed. -/
theorem leaf_only_output_has_no_ancestor_pairs (es : List Entry) :
    ∀ a ∈ leaf_only es, ∀ b ∈ leaf_only es, isAncestor a.2 b.2 = false :=
  leaf_only_no_ancestors_aux es

theorem leaf_only_output_has_no_ancestor_pairs_witness :
    (60, pstr "/a/b") ∈
        leaf_only [(100, pstr "/a"), (60, pstr "/a/b"), (40, pstr "/a/c")] ∧
      (40, pstr "/a/c") ∈
        leaf_only [(100, pstr "/a"), (60, pstr "/a/b"), (40, pstr "/a/c")] ∧
      isAncestor (pstr "/a/b") (pstr "/a/c") = false :=
  ⟨by decide, by decide,
    leaf_only_output_has_no_ancestor_pairs
      [(100, pstr "/a"), (60, pstr "/a/b"), (40, pstr "/a/c")]
      (60, pstr "/a/b") (by decide) (40, pstr "/a/c") (by decide)⟩

/-- Claim C10: `leaf_only` never invents or alters entries; its output is a
sub-multiset of its input (and the model is pure, as is the Python code,
which builds fresh lists and leaves the argument untouched).
Status: confirmed. -/
theorem leaf_only_output_submultiset (es : List Entry) : leaf_only es <+~ es :=
  leaf_only_subperm_aux es

/-- Counterexample to claim C3: on input `[(5, "/a"), (5, "/bb")]` the two
equal-sized entries come back in the order `"/bb", "/a"`, which is not their
original encounter order, so the output is not "descending by size with ties
in original input order" as claimed. -/
theorem leaf_only_tie_order_counterexample :
    ¬ ((leaf_only [(5, pstr "/a"), (5, pstr "/bb")]).Pairwise sizeGe ∧
      ∀ v : Int,
        (leaf_only [(5, pstr "/a"), (5, pstr "/bb")]).filter
            (fun e => decide (e.1 = v)) <+
          ([(5, pstr "/a"), (5, pstr "/bb")] : List Entry).filter
            (fun e => decide (e.1 = v))) := by
  rintro ⟨-, h⟩
  have h5 := h 5
  have e1 : (leaf_only [(5, pstr "/a"), (5, pstr "/bb")]).filter
      (fun e => decide (e.1 = (5 : Int))) = [(5, pstr "/bb"), (5, pstr "/a")] := by
    decide
  have e2 : ([(5, pstr "/a"), (5, pstr "/bb")] : List Entry).filter
      (fun e => decide (e.1 = (5 : Int))) = [(5, pstr "/a"), (5, pstr "/bb")] := by
    decide
  rw [e1, e2] at h5
  exact absurd (h5.eq_of_length (by decide)) (by decide)

/-- Amended claim C3: the output of `leaf_only` is sorted descending by size,
but entries of equal size appear in the relative order of the length-first
processing pass (`sortLen`: longer paths first, equal lengths in encounter
order), not in original encounter order. Status: corrected. -/
theorem leaf_only_output_order (es : List Entry) :
    (leaf_only es).Pairwise sizeGe ∧
      ∀ v : Int,
        (leaf_only es).filter (fun e => decide (e.1 = v)) <+
          (sortLen es).filter (fun e => decide (e.1 = v)) := by
  refine ⟨sortSize_sorted _, fun v => ?_⟩
  obtain ⟨hsub, -, -⟩ := keepFold_invariants es
  have h1 : (leaf_only es).filter (fun e => decide (e.1 = v)) =
      (keepFold [] (sortLen es)).filter (fun e => decide (e.1 = v)) := by
    rw [leaf_only]
    exact sortSize_filter_sizeEq _ v
  rw [h1]
  exact hsub.filter _

/-- Claim C4: the RankFilter stage returns at most `topN` entries; every raw
entry that meets the threshold takes part in the ranking; every entry cut by
the truncation is no larger than every entry kept by it; and entries of equal
size keep their relative input order. Status: confirmed. -/
theorem rank_filter_spec (es : List Entry) (g : ℚ) (n : Nat) :
    (rank_filter es g n).length ≤ n ∧
      (∀ e ∈ es, meetsMin g e = true →
        e ∈ sortSize (es.filter (meetsMin g))) ∧
      (∀ a ∈ (sortSize (es.filter (meetsMin g))).take n,
        ∀ b ∈ (sortSize (es.filter (meetsMin g))).drop n, b.1 ≤ a.1) ∧
      ∀ v : Int,
        (rank_filter es g n).filter (fun e => decide (e.1 = v)) <+
          es.filter (fun e => decide (e.1 = v)) := by
  refine ⟨?_, ?_, ?_, ?_⟩
  · rw [rank_filter]
    simp [List.length_take]
  · intro e he hm
    exact (sortSize_perm _).mem_iff.mpr (List.mem_filter.mpr ⟨he, hm⟩)
  · intro a ha b hb
    have hsorted := sortSize_sorted (es.filter (meetsMin g))
    rw [← List.take_append_drop n (sortSize (es.filter (meetsMin g))),
      List.pairwise_append] at hsorted
    exact hsorted.2.2 a ha b hb
  · intro v
    have h1 : rank_filter es g n <+ sortSize (es.filter (meetsMin g)) := by
      rw [rank_filter]
      exact List.take_sublist _ _
    have h2 := h1.filter (fun e => decide (e.1 = v))
    rw [sortSize_filter_sizeEq] at h2
    exact h2.trans ((List.filter_sublist es).filter _)

theorem rank_filter_spec_witness :
    (rank_filter [(3221225472, pstr "/a"), (2147483648, pstr "/b")]
        (mkRat 3 2) 1).length ≤ 1 ∧
      (2147483648, pstr "/b") ∈ sortSize
        (([(3221225472, pstr "/a"), (2147483648, pstr "/b")] : List Entry).filter
          (meetsMin (mkRat 3 2))) ∧
      ((2147483648 : Int) ≤ (3221225472 : Int)) ∧
      (rank_filter [(3221225472, pstr "/a"), (2147483648, pstr "/b")]
          (mkRat 3 2) 1).filter (fun e => decide (e.1 = (3221225472 : Int))) <+
        ([(3221225472, pstr "/a"), (2147483648, pstr "/b")] : List Entry).filter
          (fun e => decide (e.1 = (3221225472 : Int))) := by
  obtain ⟨h1, h2, h3, h4⟩ :=
    rank_filter_spec [(3221225472, pstr "/a"), (2147483648, pstr "/b")]
      (mkRat 3 2) 1
  exact ⟨h1, h2 (2147483648, pstr "/b") (by decide) (by decide),
    h3 (3221225472, pstr "/a") (by decide) (2147483648, pstr "/b") (by decide),
    h4 3221225472⟩

/-- Claim C6: raising the minimum-size threshold never admits new entries:
everything returned at the higher threshold is returned at the lower one once
the top-N bound is made at least the length of the input.
Status: confirmed. -/
theorem rank_filter_threshold_monotone (g1 g2 : ℚ) (es : List Entry)
    (n n' : Nat) (hg : g1 < g2) (hn : es.length ≤ n') :
    ∀ e ∈ rank_filter es g2 n, e ∈ rank_filter es g1 n' := by
  intro e he
  rw [rank_filter] at he
  have h1 : e ∈ sortSize (es.filter (meetsMin g2)) :=
    (List.take_sublist _ _).subset he
  have h2 : e ∈ es.filter (meetsMin g2) := (sortSize_perm _).mem_iff.mp h1
  obtain ⟨hes, hm2⟩ := List.mem_filter.mp h2
  have hm1 : meetsMin g1 e = true := by
    rw [meetsMin, decide_eq_true_iff] at hm2 ⊢
    exact le_of_lt (lt_of_lt_of_le hg hm2)
  have h3 : e ∈ sortSize (es.filter (meetsMin g1)) :=
    (sortSize_perm _).mem_iff.mpr (List.mem_filter.mpr ⟨hes, hm1⟩)
  rw [rank_filter, List.take_of_length_le ?_]
  · exact h3
  · calc (sortSize (es.filter (meetsMin g1))).length
        = (es.filter (meetsMin g1)).length := (sortSize_perm _).length_eq
    _ ≤ es.length := List.length_filter_le _ _
    _ ≤ n' := hn

theorem rank_filter_threshold_monotone_witness :
    mkRat 1 1 < mkRat 2 1 ∧
      ([((2147483648 : Int), pstr "/a")] : List Entry).length ≤ 1 ∧
      ((2147483648 : Int), pstr "/a") ∈
        rank_filter [(2147483648, pstr "/a")] (mkRat 2 1) 1 ∧
      ((2147483648 : Int), pstr "/a") ∈
        rank_filter [(2147483648, pstr "/a")] (mkRat 1 1) 1 :=
  ⟨by decide, by decide, by decide,
    rank_filter_threshold_monotone (mkRat 1 1) (mkRat 2 1)
      [(2147483648, pstr "/a")] 1 1 (by decide) (by decide)
      ((2147483648 : Int), pstr "/a") (by decide)⟩

/-- Counterexample to claim C2: with raw entries `/a` of 3 GiB containing
`/a/b` of 1 GiB and a 1.5 GiB threshold, the pipeline keeps `/a` (its child
is filtered out before leaf reduction), while `RankFilter` applied after
`LeafReducer` on the raw entries returns nothing (reduction first drops `/a`,
then the threshold drops `/a/b`). -/
theorem top_folders_leaf_counterexample :
    top_folders [(3221225472, pstr "/a"), (1073741824, pstr "/a/b")]
        (mkRat 3 2) 30 true ≠
      rank_filter
        (leaf_only [(3221225472, pstr "/a"), (1073741824, pstr "/a/b")])
        (mkRat 3 2) 30 := by
  decide

/-- Amended claim C2: when the leaf-only toggle is on, the pipeline equals
RankFilter composed with LeafReducer applied to the *already thresholded*
raw entries — the minimum-size threshold is applied before leaf reduction,
not after; re-applying the threshold inside RankFilter is then a no-op since
reduction only keeps existing entries. Status: corrected. -/
theorem top_folders_leaf_refinement (pairs : List Entry) (g : ℚ) (n : Nat) :
    top_folders pairs g n true =
      rank_filter (leaf_only (pairs.filter (meetsMin g))) g n := by
  have hfix : (leaf_only (pairs.filter (meetsMin g))).filter (meetsMin g) =
      leaf_only (pairs.filter (meetsMin g)) := by
    apply List.filter_eq_self.mpr
    intro e he
    exact (List.mem_filter.mp (mem_of_mem_leaf_only he)).2
  show (sortSize (leaf_only (pairs.filter (meetsMin g)))).take n = _
  rw [rank_filter, hfix]

/-! ## Histogram and totals lemmas -/

theorem dgetD_bump (h : List (List Char × Int)) (k b : List Char) (v : Int) :
    dgetD (bump h k v) b = dgetD h b + (if k = b then v else 0) := by
  induction h with
  | nil =>
    by_cases hb : k = b
    · subst hb
      simp [bump, dgetD, dget]
    · simp [bump, dgetD, dget, hb]
  | cons kv t ih =>
    by_cases h1 : kv.1 = k
    · by_cases h2 : kv.1 = b
      · have hkb : k = b := h1.symm.trans h2
        simp [bump, dgetD, dget, h1, h2, hkb]
      · have hkb : ¬ k = b := fun he => h2 (h1.trans he)
        simp [bump, dgetD, dget, h1, h2, hkb]
    · by_cases h2 : kv.1 = b
      · have hkb : ¬ k = b := fun he => h1 (h2.trans he.symm)
        have hbk : ¬ b = k := fun he => h1 (h2.trans he)
        simp [bump, dgetD, dget, h1, h2, hkb, hbk]
      · have := ih
        rw [dgetD] at this
        simp [bump, dgetD, dget, h1, h2, this]

theorem filetype_totals_value_aux (files : List Entry) (b : List Char) :
    ∀ h0 : List (List Char × Int),
      dgetD (files.foldl (fun h e => bump h (extBucket e.2) e.1) h0) b =
        dgetD h0 b +
          sumSizes (files.filter (fun f => decide (extBucket f.2 = b))) := by
  induction files with
  | nil =>
    intro h0
    simp [sumSizes]
  | cons f t ih =>
    intro h0
    rw [List.foldl_cons, ih, dgetD_bump]
    by_cases hb : extBucket f.2 = b
    · simp [List.filter_cons, hb, sumSizes]
      omega
    · simp [List.filter_cons, hb]

theorem dset_append_of_not_mem {d : List (List Char × Int)} {k : List Char}
    (v : Int) (h : k ∉ d.map Prod.fst) : dset d k v = d ++ [(k, v)] := by
  induction d with
  | nil => simp [dset]
  | cons kv t ih =>
    simp only [List.map_cons, List.mem_cons] at h
    push_neg at h
    rw [dset, if_neg (fun hh => h.1 hh.symm), List.cons_append, ih h.2]

theorem accumulate_foldl (m : List (List Char × List Entry)) :
    ∀ d : List (List Char × Int),
      (m.map Prod.fst).Nodup →
      (∀ r ∈ m.map Prod.fst, r ∉ d.map Prod.fst) →
      m.foldl (fun d p => dset d p.1 (sumSizes p.2)) d =
        d ++ m.map (fun p => (p.1, sumSizes p.2)) := by
  induction m with
  | nil =>
    intro d _ _
    simp
  | cons p t ih =>
    intro d hnd hdisj
    have hnd' : (p.1 :: t.map Prod.fst).Nodup := by simpa using hnd
    obtain ⟨hp1, hndt⟩ := List.nodup_cons.mp hnd'
    rw [List.foldl_cons, dset_append_of_not_mem _ (hdisj p.1 (by simp))]
    rw [ih (d ++ [(p.1, sumSizes p.2)]) hndt ?_]
    · simp
    · intro r hr
      simp only [List.map_append, List.mem_append]
      push_neg
      constructor
      · exact hdisj r (by simp [hr])
      · simp only [List.map_cons, List.map_nil, List.mem_singleton]
        intro he
        subst he
        exact hp1 hr

theorem dget_map_of_nodup :
    ∀ {m : List (List Char × List Entry)}, (m.map Prod.fst).Nodup →
      ∀ {pr : List Char × List Entry}, pr ∈ m →
        dget (m.map (fun p => (p.1, sumSizes p.2))) pr.1 =
          some (sumSizes pr.2) := by
  intro m
  induction m with
  | nil => simp
  | cons q t ih =>
    intro hnd pr hpr
    have hnd' : (q.1 :: t.map Prod.fst).Nodup := by simpa using hnd
    obtain ⟨hq1, hndt⟩ := List.nodup_cons.mp hnd'
    rcases List.mem_cons.mp hpr with rfl | hpr'
    · simp [dget]
    · have hq : q.1 ≠ pr.1 := by
        intro he
        exact hq1 (he ▸ List.mem_map_of_mem Prod.fst hpr')
      simp only [List.map_cons, dget, if_neg hq]
      exact ih hndt hpr'

/-- Counterexample to claim C7: the claim prescribes, for every file, the
bucket "lowercased substring after the final dot of the base name". For the
dotfile `/z/.bashrc` that substring is `.bashrc`, but `pathlib`'s `suffix`
(which the code uses) is empty on names whose only dot is the leading
character, so the code buckets the file under the `(no-ext)` sentinel. -/
theorem filetype_totals_dotfile_counterexample :
    filetype_totals [(7, pstr "/z/.bashrc")] = [(pstr "(no-ext)", 7)] ∧
      filetype_totals [(7, pstr "/z/.bashrc")] ≠
        [(lowerChars (pstr ".bashrc"), 7)] := by
  exact ⟨by decide, by decide⟩

/-- Amended claim C7: `filetype_totals` buckets every sampled file by the
lowercased `pathlib` suffix of its base name — the substring from the final
dot when that dot is neither the first nor the last character of the base
name — with the sentinel `(no-ext)` otherwise (no dot at all, dotfiles such
as `.bashrc`, trailing-dot names such as `foo.`), and sums sizes per bucket;
the claim's concrete example holds. Status: corrected. -/
theorem filetype_totals_buckets (files : List Entry) :
    (∀ b : List Char,
      dgetD (filetype_totals files) b =
        sumSizes (files.filter (fun f => decide (extBucket f.2 = b)))) ∧
      filetype_totals
          [(1000, pstr "/x/report.PDF"), (2000, pstr "/y/archive.tar.gz"),
            (500, pstr "/z/noext")] =
        [(pstr ".pdf", 1000), (pstr ".gz", 2000), (pstr "(no-ext)", 500)] ∧
      extBucket (pstr "/z/.bashrc") = pstr "(no-ext)" ∧
      extBucket (pstr "/z/foo.") = pstr "(no-ext)" := by
  refine ⟨?_, by decide, by decide, by decide⟩
  intro b
  have h := filetype_totals_value_aux files b []
  simpa [filetype_totals, dgetD, dget] using h

/-- Claim C8: `accumulate_root_totals` maps each root of the input mapping
(exactly one output entry per root, in order) to the plain, unreduced,
unthresholded sum of its entry sizes; in particular overlapping parent and
child entries are both counted, as in the claim's `/r` example.
Status: confirmed. -/
theorem accumulate_root_totals_spec :
    (∀ m : List (List Char × List Entry), (m.map Prod.fst).Nodup →
      (accumulate_root_totals m).map Prod.fst = m.map Prod.fst ∧
        ∀ pr ∈ m,
          dget (accumulate_root_totals m) pr.1 = some (sumSizes pr.2)) ∧
      accumulate_root_totals
          [(pstr "/r", [(10, pstr "/r/a"), (20, pstr "/r/a/b")])] =
        [(pstr "/r", 30)] := by
  refine ⟨?_, by decide⟩
  intro m hnd
  have hacc : accumulate_root_totals m =
      m.map (fun p => (p.1, sumSizes p.2)) := by
    have h := accumulate_foldl m [] hnd (by simp)
    simpa [accumulate_root_totals] using h
  refine ⟨?_, ?_⟩
  · rw [hacc, List.map_map]
    rfl
  · intro pr hpr
    rw [hacc]
    exact dget_map_of_nodup hnd hpr

theorem accumulate_root_totals_spec_witness :
    (([(pstr "/r", [(10, pstr "/r/a"), (20, pstr "/r/a/b")])] :
        List (List Char × List Entry)).map Prod.fst).Nodup ∧
      (accumulate_root_totals
          [(pstr "/r", [(10, pstr "/r/a"), (20, pstr "/r/a/b")])]).map
          Prod.fst =
        ([(pstr "/r", [(10, pstr "/r/a"), (20, pstr "/r/a/b")])] :
          List (List Char × List Entry)).map Prod.fst ∧
      dget (accumulate_root_totals
          [(pstr "/r", [(10, pstr "/r/a"), (20, pstr "/r/a/b")])])
          (pstr "/r") =
        some (sumSizes [(10, pstr "/r/a"), (20, pstr "/r/a/b")]) := by
  have h := accumulate_root_totals_spec.1
    [(pstr "/r", [(10, pstr "/r/a"), (20, pstr "/r/a/b")])] (by decide)
  exact ⟨by decide, h.1,
    h.2 (pstr "/r", [(10, pstr "/r/a"), (20, pstr "/r/a/b")]) (by decide)⟩

/-! ## du output parsing -/

set_option maxHeartbeats 1600000 in
theorem splitlinesAux_chars :
    ∀ (s acc : List Char) (l : List Char), l ∈ splitlinesAux s acc →
      ∀ c ∈ l, c ∈ s ∨ c ∈ acc := by
  intro s acc
  induction s, acc using splitlinesAux.induct with
  | case1 acc hacc =>
    intro l hl c hc
    rw [splitlinesAux, if_pos hacc] at hl
    simp at hl
  | case2 acc hacc =>
    intro l hl c hc
    rw [splitlinesAux, if_neg hacc] at hl
    simp only [List.mem_singleton] at hl
    subst hl
    right
    simpa using hc
  | case3 rest acc ih =>
    intro l hl c hc
    rw [splitlinesAux] at hl
    rcases List.mem_cons.mp hl with rfl | hl'
    · right
      simpa using hc
    · rcases ih l hl' c hc with h | h
      · left
        simp [h]
      · simp at h
  | case4 ch rest acc hne hcond ih =>
    intro l hl c hc
    rw [splitlinesAux] at hl
    · rw [if_pos hcond] at hl
      rcases List.mem_cons.mp hl with rfl | hl'
      · right
        simpa using hc
      · rcases ih l hl' c hc with h | h
        · left
          simp [h]
        · simp at h
    · exact hne
  | case5 ch rest acc hne hcond ih =>
    intro l hl c hc
    rw [splitlinesAux] at hl
    · rw [if_neg hcond] at hl
      rcases ih l hl c hc with h | h
      · left
        simp [h]
      · simp only [List.mem_cons] at h
        rcases h with rfl | h
        · left
          simp
        · right
          exact h
    · exact hne

theorem splitTab1_fst_subset :
    ∀ {l a b : List Char}, splitTab1 l = some (a, b) → ∀ c ∈ a, c ∈ l := by
  intro l
  induction l with
  | nil =>
    intro a b h
    simp [splitTab1] at h
  | cons x r ih =>
    intro a b h c hc
    rw [splitTab1] at h
    split at h
    · rw [Option.some.injEq, Prod.mk.injEq] at h
      obtain ⟨h1, h2⟩ := h
      subst h1
      simp at hc
    · cases hsp : splitTab1 r with
      | none =>
        rw [hsp] at h
        simp at h
      | some ab =>
        rw [hsp] at h
        simp only [Option.map_some', Option.some.injEq, Prod.mk.injEq] at h
        obtain ⟨h1, h2⟩ := h
        rw [← h1] at hc
        rcases List.mem_cons.mp hc with rfl | hc'
        · exact List.mem_cons_self _ _
        · exact List.mem_cons_of_mem _ (ih hsp c hc')

theorem pyStrip_subset (s : List Char) : ∀ c ∈ pyStrip s, c ∈ s := by
  intro c hc
  rw [pyStrip, List.mem_reverse] at hc
  have h1 := (List.dropWhile_sublist _).subset hc
  rw [List.mem_reverse] at h1
  exact (List.dropWhile_sublist _).subset h1

theorem pyIntCore_nonneg {s : List Char} (hs : '-' ∉ s) {k : Int}
    (h : pyIntCore s = some k) : 0 ≤ k := by
  rw [pyIntCore.eq_def] at h
  split at h
  · obtain ⟨n, -, rfl⟩ := Option.map_eq_some'.mp h
    exact Int.natCast_nonneg n
  · simp at hs
  · obtain ⟨n, -, rfl⟩ := Option.map_eq_some'.mp h
    exact Int.natCast_nonneg n

theorem pyInt_nonneg {s : List Char} (hs : '-' ∉ s) {k : Int}
    (h : pyInt s = some k) : 0 ≤ k :=
  pyIntCore_nonneg (fun hm => hs (pyStrip_subset s '-' hm)) h

/-- Counterexample to claim C9: `du_list` copies the sign of the parsed size
field straight through, so on the du output text `"-5\t/x"` it produces the
entry `(-5120, "/x")` with a negative `sizeBytes`; nothing in the parser
enforces nonnegativity over arbitrary subprocess output. -/
theorem du_list_negative_counterexample :
    du_list (pstr "-5\t/x") = [(-5120, pstr "/x")] ∧
      ¬ (0 ≤ (-5120 : Int)) :=
  ⟨by decide, by decide⟩

/-- Amended claim C9: every entry parsed by `du_list` from a du output text
containing no minus sign — in particular from any genuine `du -k` output,
whose size fields are unsigned KiB counts — has `sizeBytes >= 0`; the parser
itself does not enforce the invariant and passes a signed size field through.
Status: corrected. -/
theorem du_list_nonneg (out : List Char) (hout : ∀ c ∈ out, c ≠ '-') :
    ∀ e ∈ du_list out, 0 ≤ e.1 := by
  intro e he
  rw [du_list, List.mem_filterMap] at he
  obtain ⟨line, hline, hparse⟩ := he
  have hlc : ∀ c ∈ line, c ∈ out := by
    intro c hc
    have h := splitlinesAux_chars out [] line hline c hc
    simpa using h
  rw [parseDuLine.eq_def] at hparse
  split at hparse
  · exact absurd hparse (by simp)
  · rename_i a b hsp
    split at hparse
    · exact absurd hparse (by simp)
    · rename_i kk hpi
      rw [Option.some.injEq] at hparse
      have hna : '-' ∉ a := by
        intro hm
        exact hout '-' (hlc '-' (splitTab1_fst_subset hsp '-' hm)) rfl
      have hk := pyInt_nonneg hna hpi
      rw [← hparse]
      exact mul_nonneg hk (by norm_num)

theorem du_list_nonneg_witness :
    (∀ c ∈ pstr "102400\t/Library/Caches", c ≠ '-') ∧
      ∀ e ∈ du_list (pstr "102400\t/Library/Caches"), 0 ≤ e.1 :=
  ⟨by decide, du_list_nonneg (pstr "102400\t/Library/Caches") (by decide)⟩

/-! ## Idempotence of leaf_only on slash-free inputs -/

theorem keptBelow_length_strict {p q : List Char}
    (hp : p.getLast? ≠ some '/') (h : keptBelow p q = true) :
    p.length < q.length := by
  have hlt := keptBelow_length h
  rwa [rstripSlash_eq_self hp] at hlt

/-- On inputs without trailing slashes the whole output of `leaf_only` is
pairwise free of the `startswith` parent test, in both directions. -/
theorem leaf_only_parentFree {es : List Entry}
    (hsf : ∀ e ∈ es, e.2.getLast? ≠ some '/') :
    ∀ a ∈ leaf_only es, ∀ b ∈ leaf_only es, keptBelow a.2 b.2 = false := by
  obtain ⟨hsub, hR, hLen⟩ := keepFold_invariants es
  have hmemes : ∀ x ∈ keepFold [] (sortLen es), x ∈ es := fun x hx =>
    (sortLen_perm es).mem_iff.mp (hsub.subset hx)
  have hS : (keepFold [] (sortLen es)).Pairwise
      (fun x y => keptBelow x.2 y.2 = false ∧ keptBelow y.2 x.2 = false) := by
    refine List.Pairwise.imp_of_mem ?_ (hR.and hLen)
    rintro x y hx hy ⟨hr, hlen⟩
    refine ⟨?_, hr⟩
    by_contra hne
    have htrue : keptBelow x.2 y.2 = true := by simpa using hne
    have hlt := keptBelow_length_strict (hsf x (hmemes x hx)) htrue
    rw [lenGe] at hlen
    omega
  intro a ha b hb
  have haK : a ∈ keepFold [] (sortLen es) :=
    (leaf_only_perm_keepFold es).mem_iff.mp ha
  have hbK : b ∈ keepFold [] (sortLen es) :=
    (leaf_only_perm_keepFold es).mem_iff.mp hb
  rcases eq_or_ne a b with rfl | hne
  · by_contra hcon
    have htrue : keptBelow a.2 a.2 = true := by simpa using hcon
    have hlt := keptBelow_length_strict (hsf a (hmemes a haK)) htrue
    omega
  · exact (List.Pairwise.forall (fun x y h => ⟨h.2, h.1⟩) hS haK hbK hne).1

/-- When no candidate sees any kept path strictly below it, the keep loop
keeps everything in order. -/
theorem keepFold_eq_append :
    ∀ (M acc : List Entry),
      (∀ p ∈ M, ∀ k ∈ acc ++ M, keptBelow p.2 k.2 = false) →
      keepFold acc M = acc ++ M := by
  intro M
  induction M with
  | nil =>
    intro acc _
    simp [keepFold]
  | cons e rest ih =>
    intro acc h
    rw [keepFold]
    have hany : anyKeptBelow acc e.2 = false := by
      rw [anyKeptBelow, List.any_eq_false]
      intro k hk
      have hke := h e (by simp) k (by simp [hk])
      simp [hke]
    rw [if_neg (by simp [hany]), ih (acc ++ [e]) ?_]
    · simp
    · intro p hp k hk
      apply h p (by simp [hp])
      rcases List.mem_append.mp hk with hk2 | hk2
      · rcases List.mem_append.mp hk2 with hk3 | hk3
        · exact List.mem_append.mpr (Or.inl hk3)
        · simp only [List.mem_singleton] at hk3
          subst hk3
          simp
      · simp [hk2]

/-- Two lists sorted by descending size and agreeing on every equal-size
selection are equal. -/
theorem sorted_eq_of_filters :
    ∀ {A B : List Entry}, A.Pairwise sizeGe → B.Pairwise sizeGe →
      (∀ v : Int, A.filter (fun e => decide (e.1 = v)) =
        B.filter (fun e => decide (e.1 = v))) → A = B := by
  intro A
  induction A with
  | nil =>
    intro B _ _ h
    cases B with
    | nil => rfl
    | cons b B' =>
      exfalso
      have hb := h b.1
      rw [List.filter_nil, List.filter_cons] at hb
      simp at hb
  | cons a A' ih =>
    intro B hA hB h
    cases B with
    | nil =>
      exfalso
      have ha := h a.1
      rw [List.filter_nil, List.filter_cons] at ha
      simp at ha
    | cons b B' =>
      have hmemB : a ∈ b :: B' := by
        have hf := h a.1
        have ha1 : a ∈ ((a :: A').filter (fun e => decide (e.1 = a.1))) := by
          simp
        rw [hf] at ha1
        exact (List.mem_filter.mp ha1).1
      have hmemA : b ∈ a :: A' := by
        have hf := (h b.1).symm
        have hb1 : b ∈ ((b :: B').filter (fun e => decide (e.1 = b.1))) := by
          simp
        rw [hf] at hb1
        exact (List.mem_filter.mp hb1).1
      have hab : a.1 = b.1 := by
        have h1 : a.1 ≤ b.1 := by
          rcases List.mem_cons.mp hmemB with rfl | hmem
          · exact le_refl _
          · exact List.rel_of_pairwise_cons hB hmem
        have h2 : b.1 ≤ a.1 := by
          rcases List.mem_cons.mp hmemA with rfl | hmem
          · exact le_refl _
          · exact List.rel_of_pairwise_cons hA hmem
        omega
      have hf := h a.1
      rw [List.filter_cons, List.filter_cons] at hf
      rw [if_pos (by simp), if_pos (by simp [hab.symm])] at hf
      injection hf with hhead htail
      subst hhead
      have hAB : A' = B' := by
        apply ih hA.of_cons hB.of_cons
        intro v
        by_cases hv : v = a.1
        · subst hv
          exact htail
        · have hv' := h v
          rw [List.filter_cons, List.filter_cons] at hv'
          have hva : ¬ (a.1 = v) := fun he => hv he.symm
          rw [if_neg (by simp [hva]), if_neg (by simp [hva])] at hv'
          exact hv'
      rw [hAB]


/-- Re-sorting by length and then by size is the identity on a size-sorted
list whose equal-size runs are length-sorted. -/
theorem sortSize_sortLen_eq {L : List Entry} (h1 : L.Pairwise sizeGe)
    (h2 : ∀ v : Int, (L.filter (fun e => decide (e.1 = v))).Pairwise lenGe) :
    sortSize (sortLen L) = L := by
  apply sorted_eq_of_filters (sortSize_sorted _) h1
  intro v
  rw [sortSize_filter_sizeEq]
  unfold sortLen
  exact filter_insertionSort_eq (h2 v)

/-- Equal-size runs of the output of `leaf_only` are ordered by descending
path length (they inherit the processing order of the keep loop). -/
theorem leaf_only_run_property (es : List Entry) (v : Int) :
    ((leaf_only es).filter (fun e => decide (e.1 = v))).Pairwise lenGe := by
  obtain ⟨-, -, hLen⟩ := keepFold_invariants es
  have h1 : (leaf_only es).filter (fun e => decide (e.1 = v)) =
      (keepFold [] (sortLen es)).filter (fun e => decide (e.1 = v)) := by
    rw [leaf_only]
    exact sortSize_filter_sizeEq _ v
  rw [h1]
  exact hLen.filter _

/-- Counterexample to claim C5: `leaf_only` is not idempotent. On
`[(1, "/x//"), (2, "/x/y")]` the first pass keeps both entries (the longer
`"/x//"` is examined first and `"/x//".startswith("/x/y/")` fails), but the
final size sort moves `"/x/y"` in front, so the second pass examines `"/x/y"`
first and then drops `"/x//"` because `"/x/y".startswith("/x//".rstrip("/") +
"/")` holds. -/
theorem leaf_only_not_idempotent_counterexample :
    leaf_only (leaf_only [(1, pstr "/x//"), (2, pstr "/x/y")]) ≠
      leaf_only [(1, pstr "/x//"), (2, pstr "/x/y")] := by
  decide

/-- Amended claim C5: `leaf_only` is idempotent on every entry list in which
no path ends with a path separator (the form every real `du` row has); with a
trailing-slash path the two passes can examine equal-length entries in
different orders and disagree, as the counterexample shows.
Status: corrected. -/
theorem leaf_only_idempotent (es : List Entry)
    (hsf : ∀ e ∈ es, e.2.getLast? ≠ some '/') :
    leaf_only (leaf_only es) = leaf_only es := by
  have hpf : ∀ p ∈ sortLen (leaf_only es), ∀ k ∈ sortLen (leaf_only es),
      keptBelow p.2 k.2 = false := by
    intro p hp k hk
    exact leaf_only_parentFree hsf p ((sortLen_perm _).mem_iff.mp hp)
      k ((sortLen_perm _).mem_iff.mp hk)
  have hid : keepFold [] (sortLen (leaf_only es)) = sortLen (leaf_only es) := by
    have h := keepFold_eq_append (sortLen (leaf_only es)) [] ?_
    · simpa using h
    · intro p hp k hk
      exact hpf p hp k (by simpa using hk)
  show sortSize (keepFold [] (sortLen (leaf_only es))) = leaf_only es
  rw [hid]
  exact sortSize_sortLen_eq (sortSize_sorted _) (leaf_only_run_property es)

theorem leaf_only_idempotent_witness :
    (∀ e ∈ ([(5, pstr "/a"), (7, pstr "/a/b")] : List Entry),
      e.2.getLast? ≠ some '/') ∧
      leaf_only (leaf_only [(5, pstr "/a"), (7, pstr "/a/b")]) =
        leaf_only [(5, pstr "/a"), (7, pstr "/a/b")] :=
  ⟨by decide, leaf_only_idempotent [(5, pstr "/a"), (7, pstr "/a/b")]
    (by decide)⟩

end MacScanner
